import Mathlib

/-!
Verification of the tsvd table engine: a shallow embedding of the
coordinate codec, the table model, the four mutation primitives and the
line diff engine, with theorems checking the natural-language
specification against it.

Tables are jagged lists of rows of string cells, exactly as in the
source (`type Table = Row[]`, `type Row = Cell[]`, `type Cell = string`).
JavaScript strings are modelled as Lean strings (lists of characters),
JavaScript numbers on the integer values that occur here as `Nat`/`Int`,
thrown exceptions as `Except`/`Option` results.
-/

set_option autoImplicit false

namespace Tsvd

abbrev Cell := String
abbrev Row := List Cell
abbrev Table := List Row

/-! ## Generic helpers shared by several embedded functions -/

/-- Append copies of `a` until the list has length at least `n`;
mirrors the JavaScript idiom `while (l.length < n) l.push(a)`. -/
def padTo {α : Type} (l : List α) (n : Nat) (a : α) : List α :=
  l ++ List.replicate (n - l.length) a

/-- Cell lookup with the empty-string default used throughout:
reading a missing row gives a missing cell, a missing cell gives `""`. -/
def cellD (t : Table) (r c : Nat) : String :=
  (t.getD r []).getD c ""

theorem getD_append_replicate {α : Type} (l : List α) (k i : Nat) (d : α) :
    (l ++ List.replicate k d).getD i d = l.getD i d := by
  induction l generalizing i with
  | nil =>
      simp only [List.nil_append]
      cases i with
      | zero => cases k <;> simp [List.replicate, List.getD]
      | succ j =>
          cases k with
          | zero => simp [List.replicate]
          | succ m =>
              simp [List.replicate, List.getD_cons_succ]
  | cons x xs ih =>
      cases i with
      | zero => simp [List.getD]
      | succ j => simpa [List.getD] using ih j

theorem getD_padTo {α : Type} (l : List α) (n i : Nat) (d : α) :
    (padTo l n d).getD i d = l.getD i d :=
  getD_append_replicate l (n - l.length) i d

theorem length_padTo {α : Type} (l : List α) (n : Nat) (a : α) :
    (padTo l n a).length = max l.length n := by
  simp only [padTo, List.length_append, List.length_replicate]
  omega

theorem getD_set_ne {α : Type} (l : List α) (i j : Nat) (a d : α) (h : i ≠ j) :
    (l.set i a).getD j d = l.getD j d := by
  induction l generalizing i j with
  | nil => simp [List.set]
  | cons x xs ih =>
      cases i with
      | zero =>
          cases j with
          | zero => exact absurd rfl h
          | succ j2 => simp [List.set, List.getD]
      | succ i2 =>
          cases j with
          | zero => simp [List.set, List.getD]
          | succ j2 =>
              simp only [List.set, List.getD_cons_succ]
              exact ih i2 j2 (fun hc => h (by omega))

theorem getD_set_self {α : Type} (l : List α) (i : Nat) (a d : α)
    (h : i < l.length) : (l.set i a).getD i d = a := by
  induction l generalizing i with
  | nil => simp at h
  | cons x xs ih =>
      cases i with
      | zero => simp [List.set, List.getD]
      | succ i2 =>
          simp only [List.set, List.getD_cons_succ]
          exact ih i2 (by simpa using h)

/-! ## Coordinate codec (src/lib/spreadsheet.ts) -/

/-- Loop body of `indexToColumnLabel`: the JavaScript
`while (num > 0) { num--; label = chr(65 + num % 26) + label; num = num / 26 | 0 }`
as structural recursion on a fuel argument bounding the loop value (the
loop value strictly decreases, so fuel equal to the initial value
suffices and the exhaustion branch is never reached from the wrapper). -/
def indexToColumnLabelAux : Nat → Nat → List Char → List Char
  | _, 0, acc => acc
  | 0, _ + 1, acc => acc
  | fuel + 1, num + 1, acc =>
      indexToColumnLabelAux fuel (num / 26) (Char.ofNat (65 + num % 26) :: acc)

/-- Embedding of `indexToColumnLabel`: bijective base-26 rendering of a
0-based column index (source: src/lib/spreadsheet.ts, lines 37-48). -/
def indexToColumnLabel (index : Nat) : String :=
  ⟨indexToColumnLabelAux (index + 1) (index + 1) []⟩

/-- Embedding of `columnLabelToIndex` (source: src/lib/spreadsheet.ts,
lines 51-57): fold `result = result * 26 + (charCode - 64)` over the
characters, then subtract 1. JavaScript subtraction may go negative, so
the result is an `Int`; the function performs no validation. -/
def columnLabelToIndex (label : String) : Int :=
  (label.data.foldl (fun r c => r * 26 + ((c.toNat : Int) - 64)) 0) - 1

/-- Character is an uppercase letter A-Z (charCode 65..90). -/
def isUpperAlpha (c : Char) : Bool :=
  decide (65 ≤ c.toNat) && decide (c.toNat ≤ 90)

/-- Natural-number value of a label under the same fold as
`columnLabelToIndex`, before the final subtraction of 1. -/
def labelVal (l : List Char) : Nat :=
  l.foldl (fun r c => r * 26 + (c.toNat - 64)) 0

/-- Number of letters the bijective base-26 loop emits for loop value `n`. -/
def bijLen : Nat → Nat
  | 0 => 0
  | n + 1 => bijLen (n / 26) + 1
decreasing_by exact Nat.lt_succ_of_le (Nat.div_le_self n 26)

theorem toNat_ofNat_65_add (k : Nat) (hk : k < 26) :
    (Char.ofNat (65 + k)).toNat = 65 + k := by
  revert hk
  revert k
  decide

theorem indexToColumnLabelAux_upper (fuel : Nat) :
    ∀ (num : Nat) (acc : List Char), (∀ c ∈ acc, isUpperAlpha c = true) →
      ∀ c ∈ indexToColumnLabelAux fuel num acc, isUpperAlpha c = true := by
  induction fuel with
  | zero =>
      intro num acc hacc
      cases num with
      | zero => simpa [indexToColumnLabelAux] using hacc
      | succ m => simpa [indexToColumnLabelAux] using hacc
  | succ fuel ih =>
      intro num acc hacc
      cases num with
      | zero => simpa [indexToColumnLabelAux] using hacc
      | succ m =>
          rw [indexToColumnLabelAux]
          refine ih (m / 26) _ ?_
          intro c hc
          rcases List.mem_cons.mp hc with h | h
          · subst h
            have hmod : m % 26 < 26 := Nat.mod_lt _ (by omega)
            have := toNat_ofNat_65_add (m % 26) hmod
            simp [isUpperAlpha, this]
            omega
          · exact hacc c h

theorem foldl_indexToColumnLabelAux (fuel : Nat) :
    ∀ (num : Nat), num ≤ fuel → ∀ (acc : List Char) (r : Nat),
      List.foldl (fun r c => r * 26 + (c.toNat - 64)) r
          (indexToColumnLabelAux fuel num acc) =
        List.foldl (fun r c => r * 26 + (c.toNat - 64)) (r * 26 ^ bijLen num + num)
          acc := by
  induction fuel with
  | zero =>
      intro num hnum acc r
      have : num = 0 := by omega
      subst this
      simp [indexToColumnLabelAux, bijLen]
  | succ fuel ih =>
      intro num hnum acc r
      cases num with
      | zero => simp [indexToColumnLabelAux, bijLen]
      | succ m =>
          rw [indexToColumnLabelAux, bijLen]
          rw [ih (m / 26) (by have := Nat.div_le_self m 26; omega)]
          simp only [List.foldl_cons]
          congr 1
          have hmod : m % 26 < 26 := Nat.mod_lt _ (by omega)
          rw [toNat_ofNat_65_add (m % 26) hmod]
          have hdm : 26 * (m / 26) + m % 26 = m := Nat.div_add_mod m 26
          ring_nf
          omega

theorem labelVal_indexToColumnLabel (i : Nat) :
    labelVal (indexToColumnLabelAux (i + 1) (i + 1) []) = i + 1 := by
  have := foldl_indexToColumnLabelAux (i + 1) (i + 1) le_rfl [] 0
  simpa [labelVal] using this

theorem columnLabelToIndex_eq_labelVal (l : List Char)
    (h : ∀ c ∈ l, isUpperAlpha c = true) :
    columnLabelToIndex ⟨l⟩ = (labelVal l : Int) - 1 := by
  suffices hgen : ∀ r : Nat,
      List.foldl (fun r c => r * 26 + ((c.toNat : Int) - 64)) (r : Int) l =
        ((List.foldl (fun r c => r * 26 + (c.toNat - 64)) r l : Nat) : Int) by
    have := hgen 0
    simp only [Nat.cast_zero] at this
    simp [columnLabelToIndex, labelVal, this]
  induction l with
  | nil => intro r; simp
  | cons c cs ih =>
      intro r
      have hc : isUpperAlpha c = true := h c (List.mem_cons_self c cs)
      have h65 : 65 ≤ c.toNat := by
        simp [isUpperAlpha] at hc; exact hc.1
      have hstep : ((r : Int) * 26 + ((c.toNat : Int) - 64)) =
          ((r * 26 + (c.toNat - 64) : Nat) : Int) := by
        push_cast [Nat.cast_sub (by omega : 64 ≤ c.toNat)]
        ring
      simp only [List.foldl_cons, hstep]
      exact ih (fun d hd => h d (List.mem_cons_of_mem c hd)) (r * 26 + (c.toNat - 64))

/-- Round trip index → label → index. -/
theorem columnLabelToIndex_indexToColumnLabel (i : Nat) :
    columnLabelToIndex (indexToColumnLabel i) = (i : Int) := by
  have hupper := indexToColumnLabelAux_upper (i + 1) (i + 1) [] (by intro c hc; cases hc)
  have := columnLabelToIndex_eq_labelVal (indexToColumnLabelAux (i + 1) (i + 1) []) hupper
  rw [indexToColumnLabel, this, labelVal_indexToColumnLabel]
  push_cast
  ring

theorem labelVal_pos (l : List Char) (hne : l ≠ [])
    (h : ∀ c ∈ l, isUpperAlpha c = true) : 1 ≤ labelVal l := by
  suffices hgen : ∀ (r : Nat) (cs : List Char), cs ≠ [] →
      (∀ c ∈ cs, isUpperAlpha c = true) →
      1 ≤ List.foldl (fun r c => r * 26 + (c.toNat - 64)) r cs from
    hgen 0 l hne h
  intro r cs
  induction cs generalizing r with
  | nil => intro h1 _; exact absurd rfl h1
  | cons c cs2 ih =>
      intro _ hall
      simp only [List.foldl_cons]
      cases cs2 with
      | nil =>
          have hc := hall c (List.mem_cons_self c [])
          simp only [List.foldl_nil]
          simp [isUpperAlpha] at hc
          omega
      | cons d ds =>
          exact ih _ (by simp) (fun e he => hall e (List.mem_cons_of_mem c he))

theorem indexToColumnLabelAux_labelVal (l : List Char) (hne : l ≠ [])
    (h : ∀ c ∈ l, isUpperAlpha c = true) :
    ∀ fuel, labelVal l ≤ fuel →
      ∀ acc, indexToColumnLabelAux fuel (labelVal l) acc = l ++ acc := by
  induction l using List.reverseRecOn with
  | nil => exact absurd rfl hne
  | append_singleton l c ih =>
      intro fuel hfuel acc
      have hc : isUpperAlpha c = true := h c (by simp)
      have h65 : 65 ≤ c.toNat ∧ c.toNat ≤ 90 := by
        simpa [isUpperAlpha] using hc
      have hval : labelVal (l ++ [c]) = labelVal l * 26 + (c.toNat - 64) := by
        simp [labelVal, List.foldl_append]
      cases hl : l with
      | nil =>
          subst hl
          have hd : labelVal ([] ++ [c]) = c.toNat - 64 := by
            simp [labelVal]
          rw [hd] at hfuel ⊢
          obtain ⟨m, hm⟩ : ∃ m, c.toNat - 64 = m + 1 := ⟨c.toNat - 65, by omega⟩
          rw [hm] at hfuel ⊢
          obtain ⟨f, hf⟩ : ∃ f, fuel = f + 1 := ⟨fuel - 1, by omega⟩
          subst hf
          rw [indexToColumnLabelAux]
          have hmlt : m < 26 := by omega
          rw [Nat.div_eq_of_lt hmlt, Nat.mod_eq_of_lt hmlt]
          rw [indexToColumnLabelAux]
          have hchar : 65 + m = c.toNat := by omega
          rw [hchar, Char.ofNat_toNat]
          simp
      | cons x xs =>
          rw [← hl]
          have hlne : l ≠ [] := by rw [hl]; simp
          have hlup : ∀ d ∈ l, isUpperAlpha d = true := by
            intro d hd
            exact h d (List.mem_append_left [c] hd)
          have hpos := labelVal_pos l hlne hlup
          rw [hval] at hfuel ⊢
          have hd64 : 1 ≤ c.toNat - 64 := by omega
          obtain ⟨e, he⟩ : ∃ e, c.toNat - 64 = e + 1 := ⟨c.toNat - 65, by omega⟩
          have helt : e < 26 := by omega
          have hsum : labelVal l * 26 + (c.toNat - 64) =
              ((labelVal l) * 26 + e) + 1 := by omega
          rw [hsum] at hfuel ⊢
          obtain ⟨f, hf⟩ : ∃ f, fuel = f + 1 := ⟨fuel - 1, by omega⟩
          subst hf
          rw [indexToColumnLabelAux]
          have hdiv : (labelVal l * 26 + e) / 26 = labelVal l := by omega
          have hmod : (labelVal l * 26 + e) % 26 = e := by omega
          rw [hdiv, hmod]
          have hchar : 65 + e = c.toNat := by omega
          rw [hchar, Char.ofNat_toNat]
          rw [ih hlne hlup f (by omega) (c :: acc)]
          simp

/-- Round trip label → index → label, for labels of uppercase letters. -/
theorem indexToColumnLabel_columnLabelToIndex (label : String)
    (hne : label.data ≠ [])
    (h : ∀ c ∈ label.data, isUpperAlpha c = true) :
    ∃ n : Nat, columnLabelToIndex label = (n : Int) ∧
      indexToColumnLabel n = label := by
  have hpos := labelVal_pos label.data hne h
  refine ⟨labelVal label.data - 1, ?_, ?_⟩
  · have heq : columnLabelToIndex label = (labelVal label.data : Int) - 1 := by
      have := columnLabelToIndex_eq_labelVal label.data h
      simpa using this
    rw [heq]
    push_cast [Nat.cast_sub hpos]
    ring
  · rw [indexToColumnLabel]
    have hv : labelVal label.data - 1 + 1 = labelVal label.data := by omega
    rw [hv, indexToColumnLabelAux_labelVal label.data hne h (labelVal label.data)
      le_rfl []]
    simp

/-! ## Table model (src/lib/spreadsheet.ts) -/

/-- Split a character list at every occurrence of `sep`; model of the
JavaScript `String.prototype.split` with a single-character separator
(`"".split(s) = [""]`, a trailing separator yields a trailing `""`). -/
def splitOnChar (sep : Char) : List Char → List (List Char)
  | [] => [[]]
  | c :: cs =>
      if c = sep then [] :: splitOnChar sep cs
      else
        match splitOnChar sep cs with
        | [] => [[c]]
        | p :: ps => (c :: p) :: ps

theorem splitOnChar_ne_nil (sep : Char) (l : List Char) :
    splitOnChar sep l ≠ [] := by
  cases l with
  | nil => simp [splitOnChar]
  | cons c cs =>
      rw [splitOnChar]
      by_cases h : c = sep
      · simp [h]
      · simp only [if_neg h]
        match splitOnChar sep cs with
        | [] => simp
        | p :: ps => simp

theorem splitOnChar_not_mem (sep : Char) (p : List Char) (hp : sep ∉ p) :
    splitOnChar sep p = [p] := by
  induction p with
  | nil => rfl
  | cons c cs ih =>
      have hc : c ≠ sep := fun h => hp (h ▸ List.mem_cons_self c cs)
      have hcs : sep ∉ cs := fun h => hp (List.mem_cons_of_mem c h)
      rw [splitOnChar, if_neg hc, ih hcs]

theorem splitOnChar_append_cons (sep : Char) (p rest : List Char)
    (hp : sep ∉ p) :
    splitOnChar sep (p ++ sep :: rest) = p :: splitOnChar sep rest := by
  induction p with
  | nil => simp [splitOnChar]
  | cons c cs ih =>
      have hc : c ≠ sep := fun h => hp (h ▸ List.mem_cons_self c cs)
      have hcs : sep ∉ cs := fun h => hp (List.mem_cons_of_mem c h)
      rw [List.cons_append, splitOnChar, if_neg hc, ih hcs]

theorem splitOnChar_intercalate_append (sep : Char) (ps : List (List Char))
    (hne : ps ≠ []) (h : ∀ p ∈ ps, sep ∉ p) :
    splitOnChar sep (List.intercalate [sep] ps ++ [sep]) = ps ++ [[]] := by
  induction ps with
  | nil => exact absurd rfl hne
  | cons p ps2 ih =>
      cases ps2 with
      | nil =>
          have hp := h p (List.mem_cons_self p [])
          simp only [List.intercalate, List.intersperse, List.flatten,
            List.append_nil]
          rw [splitOnChar_append_cons sep p [] hp]
          rfl
      | cons q qs =>
          have hp := h p (List.mem_cons_self p _)
          have hint : List.intercalate [sep] (p :: q :: qs) =
              p ++ sep :: List.intercalate [sep] (q :: qs) := by
            simp [List.intercalate, List.intersperse]
          rw [hint, List.append_assoc, List.cons_append]
          rw [splitOnChar_append_cons sep p _ hp]
          rw [ih (by simp) (fun r hr => h r (List.mem_cons_of_mem p hr))]
          simp

theorem splitOnChar_intercalate (sep : Char) (ps : List (List Char))
    (hne : ps ≠ []) (h : ∀ p ∈ ps, sep ∉ p) :
    splitOnChar sep (List.intercalate [sep] ps) = ps := by
  induction ps with
  | nil => exact absurd rfl hne
  | cons p ps2 ih =>
      cases ps2 with
      | nil =>
          have hp := h p (List.mem_cons_self p [])
          simp only [List.intercalate, List.intersperse, List.flatten,
            List.append_nil]
          exact splitOnChar_not_mem sep p hp
      | cons q qs =>
          have hp := h p (List.mem_cons_self p _)
          have hint : List.intercalate [sep] (p :: q :: qs) =
              p ++ sep :: List.intercalate [sep] (q :: qs) := by
            simp [List.intercalate, List.intersperse]
          rw [hint, splitOnChar_append_cons sep p _ hp]
          rw [ih (by simp) (fun r hr => h r (List.mem_cons_of_mem p hr))]

/-- One line of `parseTSV`: split on tabs, and force a cell empty when it
still contains a tab (dead defensive branch of the source, kept as-is). -/
def parseTSVLine (l : List Char) : Row :=
  (splitOnChar '\t' l).map (fun cell => if '\t' ∈ cell then "" else (⟨cell⟩ : String))

/-- Embedding of `parseTSV` (src/lib/spreadsheet.ts, lines 6-28): split the
content into lines, each line into tab-separated cells, then drop the
final row when it is exactly a single empty cell (file ended in a
newline). -/
def parseTSV (content : String) : Table :=
  let table := (splitOnChar '\n' content.data).map parseTSVLine
  if table.getLast? = some [""] then table.dropLast else table

/-- Embedding of `tableToTSV` (src/lib/spreadsheet.ts, lines 31-33):
join cells with tabs, rows with newlines, append one final newline. -/
def tableToTSV (table : Table) : String :=
  ⟨List.intercalate ['\n'] (table.map (fun row => List.intercalate ['\t'] (row.map String.data)))
    ++ ['\n']⟩

theorem mem_intercalate_single {α : Type} [DecidableEq α] (s : α)
    (ps : List (List α)) (x : α) (hx : x ∈ List.intercalate [s] ps) :
    x = s ∨ ∃ p ∈ ps, x ∈ p := by
  induction ps with
  | nil => simp [List.intercalate, List.intersperse] at hx
  | cons p ps2 ih =>
      cases ps2 with
      | nil =>
          simp only [List.intercalate, List.intersperse, List.flatten,
            List.append_nil] at hx
          exact Or.inr ⟨p, List.mem_cons_self p [], hx⟩
      | cons q qs =>
          have hint : List.intercalate [s] (p :: q :: qs) =
              p ++ s :: List.intercalate [s] (q :: qs) := by
            simp [List.intercalate, List.intersperse]
          rw [hint] at hx
          rcases List.mem_append.mp hx with h | h
          · exact Or.inr ⟨p, List.mem_cons_self p _, h⟩
          · rcases List.mem_cons.mp h with h | h
            · exact Or.inl h
            · rcases ih h with h | ⟨r, hr, hxr⟩
              · exact Or.inl h
              · exact Or.inr ⟨r, List.mem_cons_of_mem p hr, hxr⟩

/-- Serialization of one row inside `tableToTSV`. -/
def rowToTSV (row : Row) : List Char :=
  List.intercalate ['\t'] (row.map String.data)

theorem parseTSVLine_rowToTSV (row : Row) (hne : row ≠ [])
    (hcells : ∀ cell ∈ row, '\t' ∉ cell.data) :
    parseTSVLine (rowToTSV row) = row := by
  have hmapne : row.map String.data ≠ [] := by
    simpa using hne
  have hnotab : ∀ p ∈ row.map String.data, '\t' ∉ p := by
    intro p hp
    rcases List.mem_map.mp hp with ⟨cell, hcell, rfl⟩
    exact hcells cell hcell
  rw [parseTSVLine, rowToTSV, splitOnChar_intercalate '\t' _ hmapne hnotab]
  rw [List.map_map]
  have : ∀ cell ∈ row,
      (fun l => if '\t' ∈ l then "" else (⟨l⟩ : String)) cell.data = cell := by
    intro cell hcell
    simp only [if_neg (hcells cell hcell)]
  calc row.map ((fun l => if '\t' ∈ l then "" else (⟨l⟩ : String)) ∘ String.data)
      = row.map id := List.map_congr_left (fun cell hcell => this cell hcell)
    _ = row := List.map_id row

theorem parseTSV_tableToTSV (t : Table) (hne : t ≠ [])
    (hrows : ∀ row ∈ t, row ≠ [])
    (hcells : ∀ row ∈ t, ∀ cell ∈ row, '\t' ∉ cell.data ∧ '\n' ∉ cell.data) :
    parseTSV (tableToTSV t) = t := by
  have hdata : (tableToTSV t).data =
      List.intercalate ['\n'] (t.map rowToTSV) ++ ['\n'] := rfl
  have hrowsne : t.map rowToTSV ≠ [] := by simpa using hne
  have hnonl : ∀ p ∈ t.map rowToTSV, '\n' ∉ p := by
    intro p hp hmem
    rcases List.mem_map.mp hp with ⟨row, hrow, rfl⟩
    rcases mem_intercalate_single '\t' (row.map String.data) '\n' hmem with h | ⟨q, hq, hnq⟩
    · exact absurd h (by decide)
    · rcases List.mem_map.mp hq with ⟨cell, hcell, rfl⟩
      exact (hcells row hrow cell hcell).2 hnq
  rw [parseTSV, hdata, splitOnChar_intercalate_append '\n' _ hrowsne hnonl]
  have hmap : (t.map rowToTSV ++ [[]]).map parseTSVLine = t ++ [[""]] := by
    rw [List.map_append, List.map_map]
    have h1 : t.map (parseTSVLine ∘ rowToTSV) = t :=
      calc t.map (parseTSVLine ∘ rowToTSV)
          = t.map id := List.map_congr_left (fun row hrow =>
            parseTSVLine_rowToTSV row (hrows row hrow)
              (fun cell hcell => (hcells row hrow cell hcell).1))
        _ = t := List.map_id t
    rw [h1]
    rfl
  simp only [hmap]
  rw [List.getLast?_concat]
  simp only [if_pos rfl]
  exact List.dropLast_concat

/-- Modelled from the spec: the trailing-row normalization the round-trip
property in section 8 is stated up to. A trailing row that serializes to
an empty line (no cells, or exactly one empty cell) is dropped. -/
def dropTrailingEmptyRows (t : Table) : Table :=
  (t.reverse.dropWhile (fun row => decide (row = []) || decide (row = [""]))).reverse

/-! ## Labeled (markdown) rendering (src/lib/spreadsheet.ts, lines 59-120) -/

/-- ASCII portion of the whitespace class JavaScript `trim` and the regex
class `\s` recognize. -/
def isJsSpace (c : Char) : Bool :=
  c = ' ' || c = '\t' || c = '\n' || c = '\r' || c = '\x0b' || c = '\x0c'

/-- Model of `String.prototype.trim` on character lists. -/
def jsTrimList (l : List Char) : List Char :=
  ((l.dropWhile isJsSpace).reverse.dropWhile isJsSpace).reverse

/-- Column count used by the labeled rendering:
`Math.max(...table.map((row) => row.length))` for a nonempty table. -/
def numColsOf (t : Table) : Nat :=
  t.foldl (fun m r => max m r.length) 0

/-- Embedding of `tableToMarkdown` (src/lib/spreadsheet.ts, lines 60-90):
header row of column labels, separator row of dashes, one row per table
row prefixed with its 1-based number; rows padded to the column count;
empty cells rendered as a single space. -/
def tableToMarkdown (table : Table) : String :=
  if table = [] then "" else
  let numCols := numColsOf table
  let headers : List String := "" :: (List.range numCols).map indexToColumnLabel
  let headerRow := "| " ++ String.intercalate " | " headers ++ " |"
  let separator := "| " ++ String.intercalate " | " (headers.map (fun _ => "---")) ++ " |"
  let dataRows := table.mapIdx (fun rowIndex row =>
    let paddedRow := padTo row numCols ""
    let cells := toString (rowIndex + 1) ::
      paddedRow.map (fun cell => if cell = "" then " " else cell)
    "| " ++ String.intercalate " | " cells ++ " |")
  String.intercalate "\n" (headerRow :: separator :: dataRows)

/-- Test of the separator-line regex `^[\s|\-]+$`. -/
def isSeparatorLine (l : List Char) : Bool :=
  !l.isEmpty && l.all (fun c => isJsSpace c || c = '|' || c = '-')

/-- Cell extraction for one data line of `markdownToTable`: split on
pipes, trim each piece, keep the inner pieces, drop the row-number
column, restore single-space placeholders to empty cells. -/
def markdownLineCells (l : List Char) : Row :=
  let cells := ((splitOnChar '|' l).map jsTrimList).drop 1 |>.dropLast
  (cells.drop 1).map (fun cell => if cell = [' '] then "" else (⟨cell⟩ : String))

/-- Embedding of `markdownToTable` (src/lib/spreadsheet.ts, lines 93-120):
trim, split into lines, skip separator lines and the line at index 0,
parse each remaining line into a row. -/
def markdownToTable (markdown : String) : Table :=
  let lines := splitOnChar '\n' (jsTrimList markdown.data)
  (lines.mapIdx (fun i line =>
    let l := jsTrimList line
    if isSeparatorLine l then none
    else if i = 0 then none
    else some (markdownLineCells l))).reduceOption

/-! ## Literal search and replace (JavaScript string semantics) -/

/-- Occurrence count for a nonempty pattern: the number of matches of the
escaped-literal global regex the source builds, scanning left to right
without overlap. Structural on a fuel argument bounding the scanned
length; every step consumes at least one character, so fuel equal to the
length of the scanned text suffices. -/
def countOccAux (pat : List Char) : Nat → List Char → Nat
  | _, [] => 0
  | 0, _ :: _ => 0
  | fuel + 1, c :: rest =>
      if pat.isPrefixOf (c :: rest) then
        1 + countOccAux pat fuel (rest.drop (pat.length - 1))
      else countOccAux pat fuel rest

/-- Number of matches of `new RegExp(escapeRegex(pat), "g")` in `s`: for
an empty pattern every position matches (length + 1), otherwise the
non-overlapping occurrences. -/
def jsMatchCount (s pat : String) : Nat :=
  if pat.data = [] then s.data.length + 1
  else countOccAux pat.data s.data.length s.data

/-- Replacement of all non-overlapping occurrences, left to right, for a
nonempty pattern; fuel as in `countOccAux`. -/
def replaceAllAux (pat rep : List Char) : Nat → List Char → List Char
  | _, [] => []
  | 0, s => s
  | fuel + 1, c :: rest =>
      if pat.isPrefixOf (c :: rest) then
        rep ++ replaceAllAux pat rep fuel (rest.drop (pat.length - 1))
      else c :: replaceAllAux pat rep fuel rest

/-- Model of `String.prototype.replaceAll` with a string pattern: for an
empty pattern the replacement is inserted at every position, otherwise
all non-overlapping occurrences are replaced. -/
def jsReplaceAll (s pat rep : String) : String :=
  if pat.data = [] then ⟨rep.data ++ s.data.flatMap (fun c => c :: rep.data)⟩
  else ⟨replaceAllAux pat.data rep.data s.data.length s.data⟩

theorem countOccAux_eq_zero_iff (pat : List Char) (hpat : pat ≠ []) :
    ∀ (fuel : Nat) (s : List Char), s.length ≤ fuel →
      (countOccAux pat fuel s = 0 ↔ ¬ pat <:+: s) := by
  intro fuel
  induction fuel with
  | zero =>
      intro s hs
      have hnil : s = [] := List.eq_nil_of_length_eq_zero (by omega)
      subst hnil
      simp only [countOccAux]
      constructor
      · intro _ h
        exact hpat (List.eq_nil_of_infix_nil h)
      · intro _; trivial
  | succ n ih =>
      intro s hs
      cases s with
      | nil =>
          simp only [countOccAux]
          constructor
          · intro _ h
            exact hpat (List.eq_nil_of_infix_nil h)
          · intro _; trivial
      | cons c rest =>
          rw [countOccAux]
          by_cases hpre : pat.isPrefixOf (c :: rest)
          · simp only [if_pos hpre]
            constructor
            · intro h
              omega
            · intro h
              exact absurd ((List.isPrefixOf_iff_prefix.mp hpre).isInfix) h
          · simp only [if_neg hpre]
            rw [ih rest (by simp at hs; omega)]
            rw [List.infix_cons_iff]
            constructor
            · intro h hcon
              rcases hcon with h2 | h2
              · exact hpre (List.isPrefixOf_iff_prefix.mpr h2)
              · exact h h2
            · intro h h2
              exact h (Or.inr h2)

theorem jsMatchCount_eq_zero_iff (s pat : String) :
    jsMatchCount s pat = 0 ↔ ¬ pat.data <:+: s.data := by
  rw [jsMatchCount]
  by_cases hp : pat.data = []
  · rw [if_pos hp, hp]
    constructor
    · intro h
      exact absurd h (Nat.succ_ne_zero _)
    · intro h
      exact absurd List.nil_infix h
  · rw [if_neg hp]
    exact countOccAux_eq_zero_iff pat.data hp s.data.length s.data le_rfl

/-! ## Cell coordinate parsing (src/tsvd.ts tools module, lines 803-818) -/

/-- Character is an ASCII digit 0-9. -/
def isDigitChar (c : Char) : Bool :=
  decide (48 ≤ c.toNat) && decide (c.toNat ≤ 57)

/-- Model of `String.prototype.toUpperCase` on the ASCII range: lowercase
letters a-z map to A-Z, everything else is unchanged. -/
def jsToUpperCase (s : String) : String :=
  ⟨s.data.map (fun c =>
    if 97 ≤ c.toNat && c.toNat ≤ 122 then Char.ofNat (c.toNat - 32) else c)⟩

/-- Match of the regex `^([A-Z]+)(\d+)$`: a maximal nonempty run of
uppercase letters followed by a nonempty run of digits and nothing else.
Returns the two capture groups. -/
def matchCellRef (l : List Char) : Option (List Char × List Char) :=
  let letters := l.takeWhile isUpperAlpha
  let rest := l.dropWhile isUpperAlpha
  if letters.isEmpty then none
  else if rest.isEmpty then none
  else if rest.all isDigitChar then some (letters, rest) else none

/-- Value of `parseInt` on a nonempty all-digit string. -/
def digitsToNat (l : List Char) : Nat :=
  l.foldl (fun a c => a * 10 + (c.toNat - 48)) 0

/-- Result record of `parseCellCoordinate`. -/
structure CellCoord where
  colIndex : Nat
  rowIndex : Nat
deriving DecidableEq, Repr

/-- Embedding of `parseCellCoordinate` (src/tsvd.ts tools module, lines
803-818): match `^([A-Z]+)(\d+)$`, convert the label with
`columnLabelToIndex` (nonnegative on A-Z labels, taken as a `Nat`) and
the digits with `parseInt`, rejecting row number 0; thrown errors are
modelled as `Except.error` of the thrown message. -/
def parseCellCoordinate (cell : String) : Except String CellCoord :=
  match matchCellRef cell.data with
  | none => .error ("Invalid cell coordinate: " ++ cell)
  | some (colLabel, rowStr) =>
      let colIndex := (columnLabelToIndex ⟨colLabel⟩).toNat
      let rowNum := digitsToNat rowStr
      if rowNum = 0 then .error ("Invalid row number in cell coordinate: " ++ cell)
      else .ok { colIndex := colIndex, rowIndex := rowNum - 1 }

/-- Success test for an `Except` result. -/
def exceptOk {ε α : Type} : Except ε α → Bool
  | .ok _ => true
  | .error _ => false

/-! ## Tool results and the four mutation primitives (src/tsvd.ts) -/

/-- Embedding of the `ToolResult` type of the tools module. -/
structure ToolResult where
  success : Bool
  error : Option String := none
  proposedTable : Option Table := none
deriving DecidableEq, Repr

/-- Embedding of `toolStrReplace` (src/tsvd.ts tools module, lines
890-924): serialize to the labeled markdown form, count occurrences of
the literal search string, fail when there are none, otherwise replace
all occurrences and re-parse. The `try` around `markdownToTable` never
fires because the parser is total. -/
def toolStrReplace (workingTable : Table) (old_str new_str : String) : ToolResult :=
  let currentMarkdown := tableToMarkdown workingTable
  let occurrences := jsMatchCount currentMarkdown old_str
  if occurrences = 0 then
    { success := false, error := some "String not found in spreadsheet" }
  else
    { success := true,
      proposedTable := some (markdownToTable (jsReplaceAll currentMarkdown old_str new_str)) }

/-- Embedding of `toolReplaceAll` (src/tsvd.ts tools module, lines
927-942): parse the supplied markdown directly; the parser is total so
the catch branch never fires. -/
def toolReplaceAll (_workingTable : Table) (new_table : String) : ToolResult :=
  { success := true, proposedTable := some (markdownToTable new_table) }

/-- One entry of the `edits` array of the edit_cells tool. -/
structure EditItem where
  cell : String
  value : String
deriving DecidableEq, Repr

/-- Single application of a parsed cell edit to the cloned table: grow
the table with empty rows while `length <= rowIndex`, grow the target
row with empty cells while `length <= colIndex`, then assign. -/
def applyEdit (t : Table) (r c : Nat) (v : String) : Table :=
  let t1 := padTo t (r + 1) []
  let row1 := padTo (t1.getD r []) (c + 1) ""
  t1.set r (row1.set c v)

/-- Loop of `toolEditCells` over the edits, threading the clone and the
collected error messages exactly as the source's `for` loop does. -/
def editCellsLoop : Table → List EditItem → List String → Table × List String
  | newTable, [], errors => (newTable, errors)
  | newTable, e :: rest, errors =>
      match parseCellCoordinate (jsToUpperCase e.cell) with
      | .error msg =>
          editCellsLoop newTable rest
            (errors ++ ["Invalid cell coordinate \"" ++ e.cell ++ "\": " ++ msg])
      | .ok coord =>
          editCellsLoop (applyEdit newTable coord.rowIndex coord.colIndex e.value) rest errors

/-- Model of `Array.prototype.join("; ")`. -/
def joinSemicolon : List String → String
  | [] => ""
  | [s] => s
  | s :: rest => s ++ "; " ++ joinSemicolon rest

/-- Embedding of `toolEditCells` (src/tsvd.ts tools module, lines
945-995), with the caller's table threaded as the second component of
the result: the source copies the input with `structuredClone` and every
write in its loop targets the copy, so the caller's reference still
denotes the input value when the call returns. -/
def toolEditCellsSt (workingTable : Table) (edits : List EditItem) : ToolResult × Table :=
  let newTable := workingTable
  let res := editCellsLoop newTable edits []
  (if res.2 ≠ [] then { success := false, error := some (joinSemicolon res.2) }
   else { success := true, proposedTable := some res.1 }, workingTable)

/-- Value-level result of `toolEditCells`. -/
def toolEditCells (workingTable : Table) (edits : List EditItem) : ToolResult :=
  (toolEditCellsSt workingTable edits).1

/-- Per-row size check and padding loop of `toolReplaceArea`: rejects the
first row (1-based index in the message) wider than the addressed column
span, and pads every row to exactly that span. -/
def checkAndPadRows (expectedCols : Nat) (fromCell toCell : String) :
    List Row → Nat → Except String (List Row)
  | [], _ => .ok []
  | r :: rest, i =>
      if expectedCols < r.length then
        .error ("Row " ++ toString (i + 1) ++ " in values has " ++ toString r.length ++
          " columns, but expected at most " ++ toString expectedCols ++
          " (from " ++ fromCell ++ " to " ++ toCell ++ ")")
      else
        match checkAndPadRows expectedCols fromCell toCell rest (i + 1) with
        | .error msg => .error msg
        | .ok rs => .ok (padTo r expectedCols "" :: rs)

/-- Inner write loop of `toolReplaceArea`: overwrite the cells of one row
from column `c` onward with the supplied values. -/
def writeCells (row : Row) (c : Nat) : List String → Row
  | [] => row
  | v :: vs => writeCells (row.set c v) (c + 1) vs

/-- Outer write loop of `toolReplaceArea`: for each replacement row, pad
the target row while `length <= toCol` and overwrite the addressed
columns. -/
def writeRows (fromCol toCol : Nat) : Table → Nat → List Row → Table
  | t, _, [] => t
  | t, r, vals :: rest =>
      let row1 := padTo (t.getD r []) (toCol + 1) ""
      writeRows fromCol toCol (t.set r (writeCells row1 fromCol vals)) (r + 1) rest

/-- Embedding of `toolReplaceArea` (src/tsvd.ts tools module, lines
998-1123), with the caller's table threaded as the second component:
the source clones `values` row by row and `structuredClone`s the working
table, and every write targets those copies. -/
def toolReplaceAreaSt (workingTable : Table) (from_cell to_cell : String)
    (values : List Row) : ToolResult × Table :=
  (match parseCellCoordinate (jsToUpperCase from_cell) with
   | .error msg => { success := false, error := some ("Invalid from_cell: " ++ msg) }
   | .ok fromC =>
     match parseCellCoordinate (jsToUpperCase to_cell) with
     | .error msg => { success := false, error := some ("Invalid to_cell: " ++ msg) }
     | .ok toC =>
       if toC.rowIndex < fromC.rowIndex then
         { success := false,
           error := some "from_cell row must be less than or equal to to_cell row" }
       else if toC.colIndex < fromC.colIndex then
         { success := false,
           error := some "from_cell column must be less than or equal to to_cell column" }
       else
         let expectedRows := toC.rowIndex - fromC.rowIndex + 1
         let expectedCols := toC.colIndex - fromC.colIndex + 1
         let newAreaData := values.map (fun row => row)
         if expectedRows < newAreaData.length then
           { success := false,
             error := some ("values has " ++ toString newAreaData.length ++
               " rows, but expected at most " ++ toString expectedRows ++
               " (from " ++ from_cell ++ " to " ++ to_cell ++ ")") }
         else
           match checkAndPadRows expectedCols from_cell to_cell
               (padTo newAreaData expectedRows []) 0 with
           | .error msg => { success := false, error := some msg }
           | .ok area =>
             let newTable := padTo workingTable (toC.rowIndex + 1) []
             { success := true,
               proposedTable := some (writeRows fromC.colIndex toC.colIndex newTable
                 fromC.rowIndex area) },
   workingTable)

/-- Value-level result of `toolReplaceArea`. -/
def toolReplaceArea (workingTable : Table) (from_cell to_cell : String)
    (values : List Row) : ToolResult :=
  (toolReplaceAreaSt workingTable from_cell to_cell values).1

/-- Caller's-reference threading for `toolStrReplace`: the source only
reads the working table (to serialize it), never writes through it. -/
def toolStrReplaceSt (workingTable : Table) (old_str new_str : String) :
    ToolResult × Table :=
  (toolStrReplace workingTable old_str new_str, workingTable)

/-- Caller's-reference threading for `toolReplaceAll`: the source ignores
the working table entirely. -/
def toolReplaceAllSt (workingTable : Table) (new_table : String) :
    ToolResult × Table :=
  (toolReplaceAll workingTable new_table, workingTable)

/-! ## Characterization of the edit_cells loop -/

/-- Error message pushed for one unparsable edit. -/
def editErrorMsg (e : EditItem) (msg : String) : String :=
  "Invalid cell coordinate \"" ++ e.cell ++ "\": " ++ msg

/-- Error messages the loop collects, in edit order. -/
def editErrors (edits : List EditItem) : List String :=
  edits.filterMap (fun e =>
    match parseCellCoordinate (jsToUpperCase e.cell) with
    | .error msg => some (editErrorMsg e msg)
    | .ok _ => none)

/-- Table produced by applying the edits whose address parses, in order. -/
def applyParsedEdits (t : Table) (edits : List EditItem) : Table :=
  edits.foldl (fun t e =>
    match parseCellCoordinate (jsToUpperCase e.cell) with
    | .error _ => t
    | .ok co => applyEdit t co.rowIndex co.colIndex e.value) t

theorem editCellsLoop_eq (edits : List EditItem) :
    ∀ (nt : Table) (errs : List String),
      editCellsLoop nt edits errs =
        (applyParsedEdits nt edits, errs ++ editErrors edits) := by
  induction edits with
  | nil =>
      intro nt errs
      simp [editCellsLoop, applyParsedEdits, editErrors]
  | cons e rest ih =>
      intro nt errs
      simp only [editCellsLoop]
      cases hp : parseCellCoordinate (jsToUpperCase e.cell) with
      | error msg =>
          simp [applyParsedEdits, editErrors, hp, editErrorMsg, ih]
      | ok co =>
          simp [applyParsedEdits, editErrors, hp, ih]

theorem editErrors_eq_nil_iff (edits : List EditItem) :
    editErrors edits = [] ↔
      ∀ e ∈ edits, exceptOk (parseCellCoordinate (jsToUpperCase e.cell)) = true := by
  induction edits with
  | nil => simp [editErrors]
  | cons e rest ih =>
      simp only [editErrors, List.filterMap_cons]
      cases hp : parseCellCoordinate (jsToUpperCase e.cell) with
      | error msg =>
          simp [hp, exceptOk]
      | ok co =>
          simp only [editErrors] at ih
          simp [hp, ih, exceptOk]

theorem mem_editErrors (edits : List EditItem) (e : EditItem) (msg : String)
    (he : e ∈ edits) (hp : parseCellCoordinate (jsToUpperCase e.cell) = .error msg) :
    editErrorMsg e msg ∈ editErrors edits := by
  apply List.mem_filterMap.mpr
  exact ⟨e, he, by rw [hp]⟩

theorem mem_infix_joinSemicolon (l : List String) (m : String) (hm : m ∈ l) :
    m.data <:+: (joinSemicolon l).data := by
  induction l with
  | nil => cases hm
  | cons s rest ih =>
      cases rest with
      | nil =>
          rcases List.mem_singleton.mp hm with rfl
          exact List.infix_refl _
      | cons s2 rest2 =>
          rcases List.mem_cons.mp hm with rfl | hmem
          · refine ⟨[], ("; " ++ joinSemicolon (s2 :: rest2)).data, ?_⟩
            simp [joinSemicolon, String.data_append]
          · obtain ⟨u, v, huv⟩ := ih hmem
            refine ⟨(s ++ "; ").data ++ u, v, ?_⟩
            simp only [joinSemicolon, String.data_append, List.append_assoc]
            rw [← huv]
            simp

theorem cellD_applyEdit_self (t : Table) (r c : Nat) (v : String) :
    cellD (applyEdit t r c v) r c = v := by
  rw [applyEdit, cellD]
  have hr : r < (padTo t (r + 1) []).length := by
    rw [length_padTo]; omega
  rw [getD_set_self _ r _ [] hr]
  have hc : c < (padTo ((padTo t (r + 1) []).getD r []) (c + 1) "").length := by
    rw [length_padTo]; omega
  exact getD_set_self _ c v "" hc

theorem cellD_applyEdit_ne (t : Table) (r c i j : Nat) (v : String)
    (h : i ≠ r ∨ j ≠ c) :
    cellD (applyEdit t r c v) i j = cellD t i j := by
  rw [applyEdit, cellD, cellD]
  by_cases hi : i = r
  · subst hi
    rcases h with h | h
    · exact absurd rfl h
    · have hr : i < (padTo t (i + 1) []).length := by
        rw [length_padTo]; omega
      rw [getD_set_self _ i _ [] hr]
      rw [getD_set_ne _ c j _ "" (fun hc => h hc.symm)]
      rw [getD_padTo, getD_padTo]
  · rw [getD_set_ne _ r i _ [] (fun hc => hi hc.symm)]
    rw [getD_padTo]

theorem cellD_applyParsedEdits_avoid (post : List EditItem) (r c : Nat) :
    ∀ t : Table,
      (∀ x ∈ post, ∀ co : CellCoord,
        parseCellCoordinate (jsToUpperCase x.cell) = .ok co →
          co.rowIndex ≠ r ∨ co.colIndex ≠ c) →
      cellD (applyParsedEdits t post) r c = cellD t r c := by
  induction post with
  | nil => intro t _; rfl
  | cons x rest ih =>
      intro t havoid
      simp only [applyParsedEdits, List.foldl_cons]
      cases hp : parseCellCoordinate (jsToUpperCase x.cell) with
      | error msg =>
          show cellD (applyParsedEdits t rest) r c = cellD t r c
          exact ih t (fun y hy => havoid y (List.mem_cons_of_mem x hy))
      | ok co =>
          show cellD
            (applyParsedEdits (applyEdit t co.rowIndex co.colIndex x.value) rest) r c =
            cellD t r c
          have hne := havoid x (List.mem_cons_self x rest) co hp
          have hstep := cellD_applyEdit_ne t co.rowIndex co.colIndex r c x.value
            (by rcases hne with h | h
                · exact Or.inl (fun hc => h hc.symm)
                · exact Or.inr (fun hc => h hc.symm))
          have := ih (applyEdit t co.rowIndex co.colIndex x.value)
            (fun y hy => havoid y (List.mem_cons_of_mem x hy))
          rw [this, hstep]

/-- Claim C1: none of the four mutation primitives writes through the
caller's table reference — after any call, with any arguments and either
outcome, the caller's table still holds the same rows and cells. In the
embedding the caller's reference is the second component threaded
through each primitive; all writes in the source target the
`structuredClone` copies. -/
theorem claim_C1 (t : Table) (o n nt fc tc : String) (edits : List EditItem)
    (vals : List Row) :
    (toolStrReplaceSt t o n).2 = t ∧ (toolReplaceAllSt t nt).2 = t ∧
    (toolEditCellsSt t edits).2 = t ∧ (toolReplaceAreaSt t fc tc vals).2 = t :=
  ⟨rfl, rfl, rfl, rfl⟩

/-- Claim C4: an edit_cells batch containing any unparsable cell address
fails as a whole: success is false, no table is returned, the error
aggregates the message of every invalid reference, and the caller's
table is unchanged; a table is returned exactly when every address in
the batch parses. -/
theorem claim_C4 (t : Table) (edits : List EditItem) :
    ((∃ e ∈ edits, exceptOk (parseCellCoordinate (jsToUpperCase e.cell)) = false) →
      (toolEditCells t edits).success = false ∧
      (toolEditCells t edits).proposedTable = none ∧
      ∃ err, (toolEditCells t edits).error = some err ∧
        ∀ e ∈ edits, ∀ msg, parseCellCoordinate (jsToUpperCase e.cell) = .error msg →
          (editErrorMsg e msg).data <:+: err.data) ∧
    ((toolEditCells t edits).proposedTable.isSome ↔
      ∀ e ∈ edits, exceptOk (parseCellCoordinate (jsToUpperCase e.cell)) = true) ∧
    (toolEditCellsSt t edits).2 = t := by
  have hloop := editCellsLoop_eq edits t []
  have hne : (∃ e ∈ edits, exceptOk (parseCellCoordinate (jsToUpperCase e.cell)) = false) →
      editErrors edits ≠ [] := by
    rintro ⟨e, he, hbad⟩ hnil
    have := (editErrors_eq_nil_iff edits).mp hnil e he
    rw [this] at hbad
    cases hbad
  refine ⟨?_, ?_, rfl⟩
  · intro hex
    have herr := hne hex
    have hres : toolEditCells t edits =
        { success := false, error := some (joinSemicolon (editErrors edits)) } := by
      rw [toolEditCells, toolEditCellsSt]
      simp only [hloop, List.nil_append]
      rw [if_pos herr]
    refine ⟨by rw [hres], by rw [hres], joinSemicolon (editErrors edits), by rw [hres], ?_⟩
    intro e he msg hmsg
    exact mem_infix_joinSemicolon _ _ (mem_editErrors edits e msg he hmsg)
  · rw [toolEditCells, toolEditCellsSt]
    simp only [hloop, List.nil_append]
    by_cases herr : editErrors edits ≠ []
    · rw [if_pos herr]
      simp only [Option.isSome_none, Bool.false_eq_true, false_iff]
      intro hall
      exact herr ((editErrors_eq_nil_iff edits).mpr hall)
    · rw [if_neg herr]
      simp only [Option.isSome_some, true_iff]
      push_neg at herr
      exact (editErrors_eq_nil_iff edits).mp herr

/-- Witness for claim C4 at the spec's concrete example: the batch
[(A1,"5"), (1A,"x")] on table [["a"]] fails as a whole with no table. -/
theorem claim_C4_witness :
    (toolEditCells [["a"]] [⟨"A1", "5"⟩, ⟨"1A", "x"⟩]).success = false ∧
    (toolEditCells [["a"]] [⟨"A1", "5"⟩, ⟨"1A", "x"⟩]).proposedTable = none ∧
    (toolEditCellsSt [["a"]] [⟨"A1", "5"⟩, ⟨"1A", "x"⟩]).2 = [["a"]] := by
  have hex : ∃ e ∈ ([⟨"A1", "5"⟩, ⟨"1A", "x"⟩] : List EditItem),
      exceptOk (parseCellCoordinate (jsToUpperCase e.cell)) = false := by
    refine ⟨⟨"1A", "x"⟩, by simp, ?_⟩
    decide
  obtain ⟨h1, h2, h3⟩ := claim_C4 [["a"]] [⟨"A1", "5"⟩, ⟨"1A", "x"⟩]
  obtain ⟨hs, hp, _⟩ := h1 hex
  exact ⟨hs, hp, h3⟩

/-- Claim C10: when every address in an edit_cells batch parses and
several edits address the same cell, the edits are applied in list
order, so the returned table holds the value of the last edit in the
list addressing that cell. -/
theorem claim_C10 (t : Table) (pre post : List EditItem) (e : EditItem) (r c : Nat)
    (hall : ∀ x ∈ pre ++ e :: post,
      exceptOk (parseCellCoordinate (jsToUpperCase x.cell)) = true)
    (he : parseCellCoordinate (jsToUpperCase e.cell) = .ok ⟨c, r⟩)
    (hpost : ∀ x ∈ post, ∀ co : CellCoord,
      parseCellCoordinate (jsToUpperCase x.cell) = .ok co →
        co.rowIndex ≠ r ∨ co.colIndex ≠ c) :
    ∃ res, toolEditCells t (pre ++ e :: post) =
        { success := true, proposedTable := some res } ∧
      cellD res r c = e.value := by
  have hloop := editCellsLoop_eq (pre ++ e :: post) t []
  have hnil : editErrors (pre ++ e :: post) = [] :=
    (editErrors_eq_nil_iff _).mpr hall
  refine ⟨applyParsedEdits t (pre ++ e :: post), ?_, ?_⟩
  · rw [toolEditCells, toolEditCellsSt]
    simp only [hloop, List.nil_append, hnil]
    simp
  · have hsplit : applyParsedEdits t (pre ++ e :: post) =
        applyParsedEdits (applyEdit (applyParsedEdits t pre) r c e.value) post := by
      rw [applyParsedEdits, List.foldl_append, List.foldl_cons]
      rw [he]
      rfl
    rw [hsplit, cellD_applyParsedEdits_avoid post r c _ hpost]
    exact cellD_applyEdit_self _ r c e.value

/-- Witness for claim C10: the batch [(A1,"1"), (B1,"mid"), (A1,"2")]
succeeds and leaves "2" (the last edit to A1) in cell A1. -/
theorem claim_C10_witness :
    ∃ res, toolEditCells [] [⟨"A1", "1"⟩, ⟨"B1", "mid"⟩, ⟨"A1", "2"⟩] =
        { success := true, proposedTable := some res } ∧
      cellD res 0 0 = "2" :=
  claim_C10 [] [⟨"A1", "1"⟩, ⟨"B1", "mid"⟩] [] ⟨"A1", "2"⟩ 0 0
    (by decide) (by rfl) (by intro x hx; cases hx)

/-! ## Characterization of the replace_area write loops -/

theorem checkAndPadRows_ok (expectedCols : Nat) (a b : String) (rows : List Row)
    (h : ∀ r ∈ rows, r.length ≤ expectedCols) :
    ∀ i, checkAndPadRows expectedCols a b rows i =
      .ok (rows.map (fun r => padTo r expectedCols "")) := by
  induction rows with
  | nil => intro i; rfl
  | cons r rest ih =>
      intro i
      rw [checkAndPadRows]
      rw [if_neg (by have := h r (List.mem_cons_self r rest); omega)]
      rw [ih (fun q hq => h q (List.mem_cons_of_mem r hq)) (i + 1)]
      simp

theorem length_writeCells (vs : List String) :
    ∀ (row : Row) (c : Nat), (writeCells row c vs).length = row.length := by
  induction vs with
  | nil => intro row c; rfl
  | cons v vs2 ih =>
      intro row c
      rw [writeCells, ih]
      simp

theorem getD_writeCells (vs : List String) :
    ∀ (row : Row) (c j : Nat), c + vs.length ≤ row.length →
      (writeCells row c vs).getD j "" =
        if c ≤ j ∧ j < c + vs.length then vs.getD (j - c) "" else row.getD j "" := by
  induction vs with
  | nil =>
      intro row c j _
      rw [writeCells, if_neg (by simp only [List.length_nil]; omega)]
  | cons v vs2 ih =>
      intro row c j h
      simp only [List.length_cons] at h
      rw [writeCells]
      rw [ih (row.set c v) (c + 1) j (by rw [List.length_set]; omega)]
      by_cases hj : j = c
      · subst hj
        rw [if_neg (by omega), if_pos (by simp only [List.length_cons]; omega)]
        rw [getD_set_self row j v "" (by omega)]
        simp
      · by_cases hin : c + 1 ≤ j ∧ j < c + 1 + vs2.length
        · rw [if_pos hin, if_pos (by simp only [List.length_cons]; omega)]
          obtain ⟨k, hk⟩ : ∃ k, j - c = k + 1 := ⟨j - c - 1, by omega⟩
          rw [hk]
          rw [List.getD_cons_succ]
          congr 1
          omega
        · rw [if_neg hin, if_neg (by simp only [List.length_cons]; omega)]
          exact getD_set_ne row c j v "" (fun hc => hj hc.symm)

theorem length_writeRows (fromCol toCol : Nat) (area : List Row) :
    ∀ (t : Table) (r : Nat), (writeRows fromCol toCol t r area).length = t.length := by
  induction area with
  | nil => intro t r; rfl
  | cons vals rest ih =>
      intro t r
      rw [writeRows, ih]
      simp

theorem cellD_writeRows (fromCol toCol : Nat) (hfc : fromCol ≤ toCol) (area : List Row)
    (hcols : ∀ a ∈ area, a.length = toCol + 1 - fromCol) :
    ∀ (t : Table) (r : Nat), r + area.length ≤ t.length →
      ∀ i j, cellD (writeRows fromCol toCol t r area) i j =
        if r ≤ i ∧ i < r + area.length ∧ fromCol ≤ j ∧ j ≤ toCol then
          (area.getD (i - r) []).getD (j - fromCol) ""
        else cellD t i j := by
  induction area with
  | nil =>
      intro t r _ i j
      rw [writeRows, if_neg (by simp only [List.length_nil]; omega)]
  | cons vals rest ih =>
      intro t r hlen i j
      simp only [List.length_cons] at hlen
      rw [writeRows]
      have hvals : vals.length = toCol + 1 - fromCol :=
        hcols vals (List.mem_cons_self vals rest)
      have hrlt : r < t.length := by omega
      have hset :
          (t.set r (writeCells (padTo (t.getD r []) (toCol + 1) "") fromCol vals)).length
            = t.length := by simp
      rw [ih (fun a ha => hcols a (List.mem_cons_of_mem vals ha)) _ (r + 1)
        (by rw [hset]; omega) i j]
      by_cases hi : i = r
      · subst hi
        rw [if_neg (by omega)]
        rw [cellD, getD_set_self t i _ [] hrlt]
        have hwc := getD_writeCells vals (padTo (t.getD i []) (toCol + 1) "") fromCol j
          (by rw [length_padTo]; omega)
        rw [hwc]
        by_cases hj : fromCol ≤ j ∧ j ≤ toCol
        · rw [if_pos (by omega), if_pos (by simp only [List.length_cons]; omega)]
          simp
        · rw [if_neg (by omega), if_neg (by simp only [List.length_cons]; omega)]
          rw [cellD, getD_padTo]
      · have hcd : cellD (t.set r (writeCells (padTo (t.getD r []) (toCol + 1) "")
            fromCol vals)) i j = cellD t i j := by
          rw [cellD, cellD, getD_set_ne t r i _ [] (fun hc => hi hc.symm)]
        by_cases hin : r + 1 ≤ i ∧ i < r + 1 + rest.length ∧ fromCol ≤ j ∧ j ≤ toCol
        · rw [if_pos hin, if_pos (by simp only [List.length_cons]; omega)]
          obtain ⟨k, hk⟩ : ∃ k, i - r = k + 1 := ⟨i - r - 1, by omega⟩
          rw [hk, List.getD_cons_succ]
          congr 2
          omega
        · rw [if_neg hin, if_neg (by simp only [List.length_cons]; omega), hcd]

theorem getD_getD_map_padTo (cols j : Nat) (l : List Row) :
    ∀ k, ((l.map (fun r => padTo r cols "")).getD k []).getD j "" =
      (l.getD k []).getD j "" := by
  induction l with
  | nil => intro k; simp
  | cons r rest ih =>
      intro k
      cases k with
      | zero =>
          simp only [List.map_cons, List.getD_cons_zero]
          exact getD_padTo r cols j ""
      | succ k2 => simp only [List.map_cons, List.getD_cons_succ]; exact ih k2

/-- Full success characterization of `toolReplaceArea`: under parsable
bounds in the right order and values that fit the rectangle, the call
succeeds and every cell of the result is the (empty-string padded) value
inside the addressed rectangle and the input cell outside it. -/
theorem toolReplaceArea_success_cellD (t : Table) (fc tc : String) (values : List Row)
    (fCo tCo : CellCoord)
    (hf : parseCellCoordinate (jsToUpperCase fc) = .ok fCo)
    (ht : parseCellCoordinate (jsToUpperCase tc) = .ok tCo)
    (hrow : fCo.rowIndex ≤ tCo.rowIndex) (hcol : fCo.colIndex ≤ tCo.colIndex)
    (hvr : values.length ≤ tCo.rowIndex - fCo.rowIndex + 1)
    (hvc : ∀ r ∈ values, r.length ≤ tCo.colIndex - fCo.colIndex + 1) :
    ∃ res : Table,
      toolReplaceArea t fc tc values = { success := true, proposedTable := some res } ∧
      ∀ i j, cellD res i j =
        if fCo.rowIndex ≤ i ∧ i ≤ tCo.rowIndex ∧ fCo.colIndex ≤ j ∧ j ≤ tCo.colIndex then
          (values.getD (i - fCo.rowIndex) []).getD (j - fCo.colIndex) ""
        else cellD t i j := by
  have hmapid : values.map (fun row => row) = values := List.map_id values
  set expectedRows := tCo.rowIndex - fCo.rowIndex + 1 with hexpR
  set expectedCols := tCo.colIndex - fCo.colIndex + 1 with hexpC
  have hpadmem : ∀ r ∈ padTo values expectedRows [], r.length ≤ expectedCols := by
    intro r hr
    rcases List.mem_append.mp hr with h | h
    · exact hvc r h
    · rw [List.eq_of_mem_replicate h]
      simp
  have hcheck := checkAndPadRows_ok expectedCols fc tc (padTo values expectedRows [])
    hpadmem 0
  set area := (padTo values expectedRows []).map (fun r => padTo r expectedCols "")
    with harea
  have hareaLen : area.length = expectedRows := by
    rw [harea, List.length_map, length_padTo]
    omega
  have hareaCols : ∀ a ∈ area, a.length = tCo.colIndex + 1 - fCo.colIndex := by
    intro a ha
    rcases List.mem_map.mp ha with ⟨r, hr, rfl⟩
    rw [length_padTo]
    have := hpadmem r hr
    omega
  refine ⟨writeRows fCo.colIndex tCo.colIndex (padTo t (tCo.rowIndex + 1) [])
    fCo.rowIndex area, ?_, ?_⟩
  · rw [toolReplaceArea, toolReplaceAreaSt]
    simp only [hf, ht]
    rw [if_neg (by omega), if_neg (by omega), hmapid]
    rw [if_neg (by omega)]
    rw [hcheck]
  · intro i j
    have hwr := cellD_writeRows fCo.colIndex tCo.colIndex hcol area hareaCols
      (padTo t (tCo.rowIndex + 1) []) fCo.rowIndex
      (by rw [length_padTo, hareaLen]; omega) i j
    rw [hwr, hareaLen]
    by_cases hin : fCo.rowIndex ≤ i ∧ i ≤ tCo.rowIndex ∧ fCo.colIndex ≤ j ∧
        j ≤ tCo.colIndex
    · rw [if_pos (by omega), if_pos hin]
      rw [harea, getD_getD_map_padTo]
      have : (padTo values expectedRows []).getD (i - fCo.rowIndex) [] =
          values.getD (i - fCo.rowIndex) [] := getD_padTo values expectedRows _ []
      rw [this]
    · rw [if_neg (by omega), if_neg hin]
      rw [cellD, cellD, getD_padTo]

/-- Claim C5: when toolReplaceArea is given fewer value rows than the
addressed row span, or value rows with fewer cells than the column span,
the missing rows and cells are filled with empty strings so the
rectangle is exactly covered: cell (fromRow+ro, fromCol+co) of the
result is values[ro][co] when present and "" otherwise. -/
theorem claim_C5 (t : Table) (fc tc : String) (values : List Row)
    (fCo tCo : CellCoord)
    (hf : parseCellCoordinate (jsToUpperCase fc) = .ok fCo)
    (ht : parseCellCoordinate (jsToUpperCase tc) = .ok tCo)
    (hrow : fCo.rowIndex ≤ tCo.rowIndex) (hcol : fCo.colIndex ≤ tCo.colIndex)
    (hvr : values.length ≤ tCo.rowIndex - fCo.rowIndex + 1)
    (hvc : ∀ r ∈ values, r.length ≤ tCo.colIndex - fCo.colIndex + 1) :
    ∃ res : Table,
      toolReplaceArea t fc tc values = { success := true, proposedTable := some res } ∧
      ∀ ro co, ro ≤ tCo.rowIndex - fCo.rowIndex → co ≤ tCo.colIndex - fCo.colIndex →
        cellD res (fCo.rowIndex + ro) (fCo.colIndex + co) =
          (values.getD ro []).getD co "" := by
  obtain ⟨res, hres, hcell⟩ :=
    toolReplaceArea_success_cellD t fc tc values fCo tCo hf ht hrow hcol hvr hvc
  refine ⟨res, hres, ?_⟩
  intro ro co hro hco
  rw [hcell (fCo.rowIndex + ro) (fCo.colIndex + co), if_pos (by omega)]
  congr 2
  · omega
  · omega

/-- Witness for claim C5 at the spec's concrete example: replacing A1:B2
of the empty table with [["x"]] succeeds, puts "x" in A1 and the empty
string in B1, A2 and B2. -/
theorem claim_C5_witness :
    ∃ res : Table,
      toolReplaceArea [] "A1" "B2" [["x"]] =
        { success := true, proposedTable := some res } ∧
      cellD res 0 0 = "x" ∧ cellD res 0 1 = "" ∧
      cellD res 1 0 = "" ∧ cellD res 1 1 = "" := by
  obtain ⟨res, hres, hcell⟩ := claim_C5 [] "A1" "B2" [["x"]]
    { colIndex := 0, rowIndex := 0 } { colIndex := 1, rowIndex := 1 }
    (by rfl) (by rfl) (by decide) (by decide) (by decide)
    (by intro r hr; rcases List.mem_singleton.mp hr with rfl; decide)
  refine ⟨res, hres, ?_, ?_, ?_, ?_⟩
  · simpa using hcell 0 0 (by decide) (by decide)
  · simpa using hcell 0 1 (by decide) (by decide)
  · simpa using hcell 1 0 (by decide) (by decide)
  · simpa using hcell 1 1 (by decide) (by decide)

/-- Claim C9: on success, toolReplaceArea leaves every cell outside the
addressed rectangle with the value it had in the input table; cells that
exist only because the table or its rows were grown read as empty
strings on both sides (the `cellD` default). -/
theorem claim_C9 (t : Table) (fc tc : String) (values : List Row)
    (fCo tCo : CellCoord)
    (hf : parseCellCoordinate (jsToUpperCase fc) = .ok fCo)
    (ht : parseCellCoordinate (jsToUpperCase tc) = .ok tCo)
    (hrow : fCo.rowIndex ≤ tCo.rowIndex) (hcol : fCo.colIndex ≤ tCo.colIndex)
    (hvr : values.length ≤ tCo.rowIndex - fCo.rowIndex + 1)
    (hvc : ∀ r ∈ values, r.length ≤ tCo.colIndex - fCo.colIndex + 1) :
    ∃ res : Table,
      toolReplaceArea t fc tc values = { success := true, proposedTable := some res } ∧
      ∀ i j, (i < fCo.rowIndex ∨ tCo.rowIndex < i ∨ j < fCo.colIndex ∨ tCo.colIndex < j) →
        cellD res i j = cellD t i j := by
  obtain ⟨res, hres, hcell⟩ :=
    toolReplaceArea_success_cellD t fc tc values fCo tCo hf ht hrow hcol hvr hvc
  refine ⟨res, hres, ?_⟩
  intro i j hout
  rw [hcell i j, if_neg (by omega)]

/-- Witness for claim C9: replacing B1:B2 of a 2x3 table with [["X"]]
leaves the cells of columns A and C unchanged. -/
theorem claim_C9_witness :
    ∃ res : Table,
      toolReplaceArea [["a", "b", "c"], ["d", "e", "f"]] "B1" "B2" [["X"]] =
        { success := true, proposedTable := some res } ∧
      cellD res 0 0 = "a" ∧ cellD res 0 2 = "c" ∧
      cellD res 1 0 = "d" ∧ cellD res 1 2 = "f" := by
  obtain ⟨res, hres, hcell⟩ := claim_C9 [["a", "b", "c"], ["d", "e", "f"]] "B1" "B2"
    [["X"]] { colIndex := 1, rowIndex := 0 } { colIndex := 1, rowIndex := 1 }
    (by rfl) (by rfl) (by decide) (by decide) (by decide)
    (by intro r hr; rcases List.mem_singleton.mp hr with rfl; decide)
  refine ⟨res, hres, ?_, ?_, ?_, ?_⟩
  · simpa using hcell 0 0 (by decide)
  · simpa using hcell 0 2 (by decide)
  · simpa using hcell 1 0 (by decide)
  · simpa using hcell 1 2 (by decide)

/-! ## Claims about the codec, the TSV round trip and targeted replace -/

/-- Claim C2: the column codec is a bijection between uppercase labels
and indices, with the concrete values A, Z, AA, ZZ, AAA at 0, 25, 26,
701, 702. -/
theorem claim_C2 :
    (∀ label : String, label.data ≠ [] →
      (∀ c ∈ label.data, isUpperAlpha c = true) →
      ∃ n : Nat, columnLabelToIndex label = (n : Int) ∧ indexToColumnLabel n = label) ∧
    (∀ i : Nat, columnLabelToIndex (indexToColumnLabel i) = (i : Int)) ∧
    indexToColumnLabel 0 = "A" ∧ indexToColumnLabel 25 = "Z" ∧
    indexToColumnLabel 26 = "AA" ∧ indexToColumnLabel 701 = "ZZ" ∧
    indexToColumnLabel 702 = "AAA" :=
  ⟨indexToColumnLabel_columnLabelToIndex, columnLabelToIndex_indexToColumnLabel,
    by decide, by decide, by decide, by decide, by decide⟩

/-- Witness for claim C2 at the concrete label "AA". -/
theorem claim_C2_witness :
    ∃ n : Nat, columnLabelToIndex "AA" = (n : Int) ∧ indexToColumnLabel n = "AA" :=
  claim_C2.1 "AA" (by decide) (by decide)

/-- Counterexample to claim C7: `columnLabelToIndex` does not fail on the
empty string or on non-letter characters — it returns the ordinary
numbers -1 and -30 on "" and "#". -/
theorem claim_C7_counterexample :
    columnLabelToIndex "" = -1 ∧ columnLabelToIndex "#" = -30 := by decide

/-- Claim C7 amended: `columnLabelToIndex` performs no validation — it is
total, returning -1 on the empty string — and rejection of malformed
labels happens in `parseCellCoordinate`, whose regex fails any reference
containing a character that is neither an uppercase letter nor a digit. -/
theorem claim_C7_amended :
    columnLabelToIndex "" = -1 ∧
    (∀ cell : String,
      (∃ c ∈ cell.data, isUpperAlpha c = false ∧ isDigitChar c = false) →
      ∃ msg, parseCellCoordinate cell = .error msg) := by
  refine ⟨by decide, ?_⟩
  rintro cell ⟨c, hc, hup, hdig⟩
  have hnone : matchCellRef cell.data = none := by
    rw [matchCellRef]
    by_cases h1 : (cell.data.takeWhile isUpperAlpha).isEmpty
    · simp [h1]
    · have hcrest : c ∈ cell.data.dropWhile isUpperAlpha := by
        have hsplit := List.takeWhile_append_dropWhile (p := isUpperAlpha) (l := cell.data)
        have hmem : c ∈ cell.data.takeWhile isUpperAlpha ++
            cell.data.dropWhile isUpperAlpha := by
          rw [hsplit]; exact hc
        rcases List.mem_append.mp hmem with h | h
        · have := List.mem_takeWhile_imp h
          rw [hup] at this
          cases this
        · exact h
      have hall : (cell.data.dropWhile isUpperAlpha).all isDigitChar = false := by
        by_cases hA : (cell.data.dropWhile isUpperAlpha).all isDigitChar = true
        · have := List.all_eq_true.mp hA c hcrest
          rw [hdig] at this
          cases this
        · simpa using hA
      have h2 : ¬ (cell.data.dropWhile isUpperAlpha).isEmpty = true := by
        intro hE
        rw [List.isEmpty_iff] at hE
        rw [hE] at hcrest
        cases hcrest
      simp [h1, h2, hall]
  exact ⟨"Invalid cell coordinate: " ++ cell, by simp [parseCellCoordinate, hnone]⟩

/-- Witness for claim C7 amended at the concrete reference "A#1". -/
theorem claim_C7_amended_witness :
    ∃ msg, parseCellCoordinate "A#1" = .error msg :=
  claim_C7_amended.2 "A#1" ⟨'#', by decide, by decide, by decide⟩

/-- Counterexample to claim C6: the round trip is not the identity up to
trailing-row normalization for every tab-free table — a cell containing
a newline is split into two rows, and a zero-length row comes back as a
row with one empty cell. -/
theorem claim_C6_counterexample :
    (∀ row ∈ ([["a\nb"]] : Table), ∀ cell ∈ row, '\t' ∉ cell.data) ∧
    dropTrailingEmptyRows (parseTSV (tableToTSV [["a\nb"]])) ≠
      dropTrailingEmptyRows [["a\nb"]] ∧
    (∀ row ∈ ([[], ["a"]] : Table), ∀ cell ∈ row, '\t' ∉ cell.data) ∧
    dropTrailingEmptyRows (parseTSV (tableToTSV [[], ["a"]])) ≠
      dropTrailingEmptyRows [[], ["a"]] := by
  refine ⟨by decide, by decide, by decide, by decide⟩

/-- Claim C6 amended: for tables whose rows are nonempty and whose cells
contain neither the tab nor the newline delimiter, parseTSV inverts
tableToTSV up to trailing-row normalization — and exactly, for nonempty
tables. -/
theorem claim_C6_amended (t : Table) (hrows : ∀ row ∈ t, row ≠ [])
    (hcells : ∀ row ∈ t, ∀ cell ∈ row, '\t' ∉ cell.data ∧ '\n' ∉ cell.data) :
    dropTrailingEmptyRows (parseTSV (tableToTSV t)) = dropTrailingEmptyRows t ∧
    (t ≠ [] → parseTSV (tableToTSV t) = t) := by
  by_cases hne : t = []
  · subst hne
    exact ⟨by decide, fun h => absurd rfl h⟩
  · have hexact := parseTSV_tableToTSV t hne hrows hcells
    exact ⟨by rw [hexact], fun _ => hexact⟩

/-- Witness for claim C6 amended at a concrete 2x2 table. -/
theorem claim_C6_amended_witness :
    parseTSV (tableToTSV [["a", "b"], ["c", "d"]]) = [["a", "b"], ["c", "d"]] :=
  (claim_C6_amended [["a", "b"], ["c", "d"]] (by decide) (by decide)).2 (by decide)

/-- Claim C3: toolStrReplace fails with the not-found error exactly when
the search string does not occur in the labeled markdown rendering;
otherwise it succeeds with the table re-parsed from the rendering with
all occurrences literally replaced. -/
theorem claim_C3 (t : Table) (o n : String) :
    (toolStrReplace t o n =
        { success := false, error := some "String not found in spreadsheet" } ↔
      ¬ o.data <:+: (tableToMarkdown t).data) ∧
    (o.data <:+: (tableToMarkdown t).data →
      toolStrReplace t o n =
        { success := true,
          proposedTable := some (markdownToTable (jsReplaceAll (tableToMarkdown t) o n)) }) := by
  by_cases h0 : jsMatchCount (tableToMarkdown t) o = 0
  · have hni := (jsMatchCount_eq_zero_iff _ _).mp h0
    constructor
    · apply iff_of_true
      · simp only [toolStrReplace]
        rw [if_pos h0]
      · exact hni
    · intro hinf
      exact absurd hinf hni
  · have hinf : o.data <:+: (tableToMarkdown t).data := by
      by_contra hni
      exact h0 ((jsMatchCount_eq_zero_iff _ _).mpr hni)
    constructor
    · apply iff_of_false
      · simp only [toolStrReplace]
        rw [if_neg h0]
        intro heq
        have := congrArg ToolResult.success heq
        simp at this
      · exact not_not_intro hinf
    · intro _
      simp only [toolStrReplace]
      rw [if_neg h0]

/-- Witness for claim C3 at the spec's concrete scenario: "Total" occurs
exactly twice in the labeled rendering of the table, and both
occurrences are replaced in the re-parsed result. -/
theorem claim_C3_witness :
    jsMatchCount (tableToMarkdown [["Total", "a"], ["b", "Total"]]) "Total" = 2 ∧
    toolStrReplace [["Total", "a"], ["b", "Total"]] "Total" "Sum" =
      { success := true, proposedTable := some [["Sum", "a"], ["b", "Sum"]] } := by
  have hcnt : jsMatchCount (tableToMarkdown [["Total", "a"], ["b", "Total"]]) "Total" = 2 := by
    decide
  have hinf : ("Total" : String).data <:+:
      (tableToMarkdown [["Total", "a"], ["b", "Total"]]).data := by
    by_contra hni
    have := (jsMatchCount_eq_zero_iff _ _).mpr hni
    omega
  refine ⟨hcnt, ?_⟩
  rw [(claim_C3 [["Total", "a"], ["b", "Total"]] "Total" "Sum").2 hinf]
  decide

/-! ## Diff engine (src/tsvd.ts computeDiff module, lines 1321-1460) -/

/-- Operation kinds of the line diff. -/
inductive OpType
  | equal
  | delete
  | insert
deriving DecidableEq

/-- Embedding of the `LineOp` record: optional originating line indices
and the literal line content. -/
structure LineOp where
  type : OpType
  oldLine : Option Nat := none
  newLine : Option Nat := none
  content : String
deriving DecidableEq

/-- Placeholder for `ops[k]` lookups, never hit at in-range indices. -/
def defaultOp : LineOp := { type := OpType.equal, content := "" }

/-- Entry `lcs[i][j]` of the dynamic-programming table (source lines
1338-1350): 0 on the borders, diagonal + 1 on equal lines, max of left
and top otherwise. Structural on a fuel argument bounding `i + j`, which
every recursive call decreases, so fuel `i + j` suffices. -/
def lcsLenFuel (oldLines newLines : List String) : Nat → Nat → Nat → Nat
  | _, 0, _ => 0
  | _, _ + 1, 0 => 0
  | 0, _ + 1, _ + 1 => 0
  | fuel + 1, i + 1, j + 1 =>
      if oldLines.getD i "" = newLines.getD j "" then
        lcsLenFuel oldLines newLines fuel i j + 1
      else
        max (lcsLenFuel oldLines newLines fuel i (j + 1))
          (lcsLenFuel oldLines newLines fuel (i + 1) j)

/-- Lookup `lcs[i][j]`. -/
def lcs (oldLines newLines : List String) (i j : Nat) : Nat :=
  lcsLenFuel oldLines newLines (i + j) i j

/-- Backtracking loop (source lines 1353-1374), from `(i, j)` down to
`(0, 0)`, prepending one op per step exactly as the source's `unshift`
does; insert wins ties by `lcs[i][j-1] >= lcs[i-1][j]`. Fuel bounds
`i + j`, which each step decreases. -/
def backtrack (oldLines newLines : List String) : Nat → Nat → Nat → List LineOp → List LineOp
  | _, 0, 0, acc => acc
  | 0, _, _, acc => acc
  | fuel + 1, 0, j + 1, acc =>
      backtrack oldLines newLines fuel 0 j
        ({ type := OpType.insert, newLine := some j, content := newLines.getD j "" } :: acc)
  | fuel + 1, i + 1, 0, acc =>
      backtrack oldLines newLines fuel i 0
        ({ type := OpType.delete, oldLine := some i, content := oldLines.getD i "" } :: acc)
  | fuel + 1, i + 1, j + 1, acc =>
      if oldLines.getD i "" = newLines.getD j "" then
        backtrack oldLines newLines fuel i j
          ({ type := OpType.equal, oldLine := some i, newLine := some j,
             content := oldLines.getD i "" } :: acc)
      else if lcs oldLines newLines (i + 1) j ≥ lcs oldLines newLines i (j + 1) then
        backtrack oldLines newLines fuel (i + 1) j
          ({ type := OpType.insert, newLine := some j, content := newLines.getD j "" } :: acc)
      else
        backtrack oldLines newLines fuel i (j + 1)
          ({ type := OpType.delete, oldLine := some i, content := oldLines.getD i "" } :: acc)

/-- Ordered edit script between two line sequences. -/
def computeOps (oldLines newLines : List String) : List LineOp :=
  backtrack oldLines newLines (oldLines.length + newLines.length)
    oldLines.length newLines.length []

/-- Index of the last non-equal op in `[k, k + n)`, as the source's inner
`for` loop computes it by overwriting `hunkEnd` at every change. -/
def lastChangeAux (ops : List LineOp) : Nat → Nat → Option Nat
  | _, 0 => none
  | k, n + 1 =>
      match lastChangeAux ops (k + 1) n with
      | some r => some r
      | none => if (ops.getD k defaultOp).type ≠ OpType.equal then some k else none

/-- Hunk extension loop (source lines 1386-1397): while in range, look
for the last change within the next `2*CONTEXT_LINES + 1 = 7` ops; if
found, move past it and repeat. The loop advances by at least one per
iteration, so fuel `ops.length + 1 - hunkEnd` suffices. -/
def extendHunk (ops : List LineOp) : Nat → Nat → Nat
  | 0, hunkEnd => hunkEnd
  | fuel + 1, hunkEnd =>
      if hunkEnd < ops.length then
        match lastChangeAux ops hunkEnd (min (hunkEnd + 7) ops.length - hunkEnd) with
        | none => hunkEnd
        | some k => extendHunk ops fuel (k + 1)
      else hunkEnd

/-- Hunk grouping loop (source lines 1378-1410): at each non-equal op,
pad 3 context ops on each side, extend over nearby changes, merge with
the previous hunk when the padded ranges touch, and jump past the hunk.
The index strictly advances, so fuel `ops.length + 1` suffices. -/
def buildHunks (ops : List LineOp) : Nat → Nat → List (Nat × Nat) → List (Nat × Nat)
  | 0, _, hunks => hunks
  | fuel + 1, idx, hunks =>
      if idx < ops.length then
        if (ops.getD idx defaultOp).type ≠ OpType.equal then
          let hunkStart := idx - 3
          let hunkEnd :=
            min (ops.length - 1) (extendHunk ops (ops.length + 1 - idx) idx + 3)
          let hunks2 :=
            match hunks.getLast? with
            | some last =>
                if hunkStart ≤ last.2 + 1 then hunks.dropLast ++ [(last.1, hunkEnd)]
                else hunks ++ [(hunkStart, hunkEnd)]
            | none => hunks ++ [(hunkStart, hunkEnd)]
          buildHunks ops fuel (hunkEnd + 1) hunks2
        else buildHunks ops fuel (idx + 1) hunks
      else hunks

/-- Hunk ranges of an edit script. -/
def computeHunks (ops : List LineOp) : List (Nat × Nat) :=
  buildHunks ops (ops.length + 1) 0 []

/-- ANSI cyan, as the color library emits it. -/
def cyan (s : String) : String := "\x1b[36m" ++ s ++ "\x1b[39m"

/-- ANSI red. -/
def red (s : String) : String := "\x1b[31m" ++ s ++ "\x1b[39m"

/-- ANSI green. -/
def green (s : String) : String := "\x1b[32m" ++ s ++ "\x1b[39m"

/-- ANSI dim. -/
def dim (s : String) : String := "\x1b[2m" ++ s ++ "\x1b[22m"

/-- Header accumulator of one hunk (source lines 1423-1437): first
defined old/new line index (with the -1 sentinel) and the counts of ops
carrying an old/new line. -/
structure HunkHeader where
  oldStart : Int
  newStart : Int
  oldCount : Nat
  newCount : Nat
deriving DecidableEq

/-- Fold computing the hunk header data over the hunk's ops. -/
def hunkHeaderData (hunkOps : List LineOp) : HunkHeader :=
  hunkOps.foldl (fun st op =>
    let st1 :=
      match op.oldLine with
      | some l =>
          { st with oldStart := if st.oldStart = -1 then (l : Int) else st.oldStart,
                    oldCount := st.oldCount + 1 }
      | none => st
    match op.newLine with
    | some l =>
        { st1 with newStart := if st1.newStart = -1 then (l : Int) else st1.newStart,
                   newCount := st1.newCount + 1 }
    | none => st1)
    { oldStart := -1, newStart := -1, oldCount := 0, newCount := 0 }

/-- Rendered `@@ -oldStart,oldCount +newStart,newCount @@` header. -/
def hunkHeaderString (h : HunkHeader) : String :=
  "@@ -" ++ toString (h.oldStart + 1) ++ "," ++ toString h.oldCount ++
    " +" ++ toString (h.newStart + 1) ++ "," ++ toString h.newCount ++ " @@"

/-- Tab visualization: each tab is prefixed with a dimmed arrow. -/
def makeTabsVisible (s : String) : String :=
  ⟨s.data.flatMap (fun c => if c = '\t' then (dim "→").data ++ ['\t'] else [c])⟩

/-- One rendered body line of a hunk. -/
def renderOp (op : LineOp) : String :=
  match op.type with
  | OpType.delete => red ("-" ++ makeTabsVisible op.content)
  | OpType.insert => green ("+" ++ makeTabsVisible op.content)
  | OpType.equal => " " ++ makeTabsVisible op.content

/-- The ops of one hunk: `ops.slice(start, end + 1)`. -/
def hunkOpsSlice (ops : List LineOp) (h : Nat × Nat) : List LineOp :=
  (ops.drop h.1).take (h.2 + 1 - h.1)

/-- Line sequence of one side of the diff: `split("\n")`. -/
def diffLines (s : String) : List String :=
  (splitOnChar '\n' s.data).map (fun l => (⟨l⟩ : String))

/-- Embedding of `computeDiff` (src/tsvd.ts computeDiff module, lines
1321-1460): short-circuit equal inputs, LCS the line sequences, group
the edit script into context-padded hunks and render them with colored
header and plus/minus body lines. -/
def computeDiff (oldTSV newTSV : String) : String :=
  if oldTSV = newTSV then "No changes."
  else
    let ops := computeOps (diffLines oldTSV) (diffLines newTSV)
    let hunks := computeHunks ops
    if hunks = [] then "No changes."
    else
      String.intercalate "\n"
        (hunks.flatMap (fun h =>
          cyan (hunkHeaderString (hunkHeaderData (hunkOpsSlice ops h))) ::
            (hunkOpsSlice ops h).map renderOp))

/-- Counterexample to claim C8: on old text "a\nb\nc\n" and new text
"a\nX\nc\n" the diff has exactly one hunk, but its header reads
`@@ -1,4 +1,4 @@`, not `@@ -1,3 +1,3 @@` — `split("\n")` keeps the empty
line after the final newline, and it is counted in both ranges. -/
theorem claim_C8_counterexample :
    computeHunks (computeOps (diffLines "a\nb\nc\n") (diffLines "a\nX\nc\n")) =
      [(0, 4)] ∧
    hunkHeaderString (hunkHeaderData (hunkOpsSlice
      (computeOps (diffLines "a\nb\nc\n") (diffLines "a\nX\nc\n")) (0, 4))) =
      "@@ -1,4 +1,4 @@" ∧
    ("@@ -1,4 +1,4 @@" : String) ≠ "@@ -1,3 +1,3 @@" :=
  ⟨by decide, by decide, by decide⟩

/-- Claim C8 amended: the diff of "a\nb\nc\n" against "a\nX\nc\n" is one
hunk with header `@@ -1,4 +1,4 @@` whose body shows line a unchanged,
the deletion of b, the insertion of X, line c unchanged, and the final
empty line (from the trailing newline) unchanged. -/
theorem claim_C8_amended :
    computeOps (diffLines "a\nb\nc\n") (diffLines "a\nX\nc\n") =
      [{ type := OpType.equal, oldLine := some 0, newLine := some 0, content := "a" },
       { type := OpType.delete, oldLine := some 1, content := "b" },
       { type := OpType.insert, newLine := some 1, content := "X" },
       { type := OpType.equal, oldLine := some 2, newLine := some 2, content := "c" },
       { type := OpType.equal, oldLine := some 3, newLine := some 3, content := "" }] ∧
    computeHunks (computeOps (diffLines "a\nb\nc\n") (diffLines "a\nX\nc\n")) =
      [(0, 4)] ∧
    computeDiff "a\nb\nc\n" "a\nX\nc\n" =
      cyan "@@ -1,4 +1,4 @@" ++ "\n a\n" ++ red "-b" ++ "\n" ++ green "+X" ++
        "\n c\n " :=
  ⟨by decide, by decide, by decide⟩

end Tsvd
